import Mathlib

/-! The control glue of the MPC project (`src/main.cpp`).

A shallow embedding of `src/main.cpp`: `deg2rad`, `hasData`, `polyeval`, `polyfit` and the
telemetry handler of `main` (waypoint transform, fit, latency compensation, steering command).

Conventions of the embedding.

* `double` is an arbitrary field `K`; the theorems take `K = ℝ`.  The libm functions
  `cos`, `sin`, `atan` and the constant `M_PI` are arguments of the definitions that use
  them, and the theorems pass `Real.cos`, `Real.sin`, `Real.arctan`, `Real.pi`.
* `std::vector<double>` and `Eigen::VectorXd` are lists, `Eigen::MatrixXd` is a `Matrix`
  over `Fin`-indices.
* `std::string` is a list of characters; `size_t` positions are naturals below `2 ^ 64`,
  and `string::npos` is `2 ^ 64 - 1`.
* A failing `assert` is an `Except.error`.
* `A.householderQr().solve(yvals)` belongs to Eigen, not to `main.cpp`: it is the argument
  `solve` of `polyfit`.
-/

namespace MPC

section Definitions

variable {K : Type} [Field K]

/-! ## `deg2rad`, `rad2deg` -/

/-- `deg2rad(x) = x * pi() / 180`, with `pi()` the argument `pi`. -/
def deg2rad (pi x : K) : K := x * pi / 180

/-- `rad2deg(x) = x * 180 / pi()`, with `pi()` the argument `pi`. -/
def rad2deg (pi x : K) : K := x * 180 / pi

/-! ## `hasData` -/

/-- `string::npos`, the largest `size_t`. -/
def npos : ℕ := 2 ^ 64 - 1

/-- `s.find(pat)`: the least position at which `pat` occurs in `s`, else `npos`. -/
def find (s pat : List Char) : ℕ :=
  ((List.range (s.length + 1)).find? fun i => pat.isPrefixOf (s.drop i)).getD npos

/-- `s.find_first_of(set)`: the least position of a character of `set` in `s`, else `npos`. -/
def find_first_of (s set : List Char) : ℕ :=
  ((List.range s.length).find? fun i => (s.drop i).head?.any fun c => set.contains c).getD npos

/-- `s.rfind(pat)`: the greatest position at which `pat` occurs in `s`, else `npos`. -/
def rfind (s pat : List Char) : ℕ :=
  ((List.range (s.length + 1)).reverse.find? fun i => pat.isPrefixOf (s.drop i)).getD npos

/-- `s.substr(pos, count)` for `pos ≤ s.size()`: the characters from `pos` on, at most
`count` of them.  (For `pos > s.size()` the library throws; `hasData` only passes a
position that `find_first_of` found.) -/
def substr (s : List Char) (pos count : ℕ) : List Char := (s.drop pos).take count

/-- `hasData(s)`.  The length `b2 - b1 + 2` is computed in `size_t`, modulo `2 ^ 64`. -/
def hasData (s : List Char) : List Char :=
  let found_null := find s "null".toList
  let b1 := find_first_of s "[".toList
  let b2 := rfind s "\x7d]".toList
  if found_null ≠ npos then []
  else if b1 ≠ npos ∧ b2 ≠ npos then substr s b1 ((b2 + (2 ^ 64 - b1) + 2) % 2 ^ 64)
  else []

/-! ## `polyeval` -/

/-- `polyeval(coeffs, x)`: the loop `result += coeffs[i] * pow(x, i)` for
`i = 0, …, coeffs.size() - 1`, from `result = 0`. -/
def polyeval (coeffs : List K) (x : K) : K :=
  (List.range coeffs.length).foldl (fun result i => result + coeffs.getD i 0 * x ^ i) 0

/-! ## `polyfit` -/

/-- The two assertions of `polyfit`. -/
inductive AssertFailure where
  /-- `assert(xvals.size() == yvals.size())` failed. -/
  | sizeMismatch
  /-- `assert(order >= 1 && order <= xvals.size() - 1)` failed. -/
  | orderOutOfRange
  deriving DecidableEq

/-- The type of `A.householderQr().solve(y)`: from an `m × n` matrix and an `m`-vector to an
`n`-vector. -/
def Solver (K : Type) : Type :=
  (m n : ℕ) → Matrix (Fin m) (Fin n) K → (Fin m → K) → (Fin n → K)

/-- Row `j` of `A` as the loops of `polyfit` fill it: `A(j, 0) = 1.0` and
`A(j, i + 1) = A(j, i) * xvals(j)`. -/
def designEntry (xj : K) : ℕ → K
  | 0 => 1
  | i + 1 => designEntry xj i * xj

/-- The matrix `A` of `polyfit`, with `xvals.size()` rows and `order + 1` columns. -/
def designMatrix (xvals : List K) (order : ℕ) : Matrix (Fin xvals.length) (Fin (order + 1)) K :=
  fun j i => designEntry (xvals.getD j 0) i

/-- The vector `yvals` as the right-hand side of a system with `m` rows. -/
def rhs (yvals : List K) (m : ℕ) : Fin m → K := fun j => yvals.getD j 0

/-- `polyfit(xvals, yvals, order)`: the two assertions, then the solver applied to the
design matrix and `yvals`. -/
def polyfit (solve : Solver K) (xvals yvals : List K) (order : ℤ) :
    Except AssertFailure (List K) :=
  if xvals.length ≠ yvals.length then .error .sizeMismatch
  else if ¬ (order ≥ 1 ∧ order ≤ (xvals.length : ℤ) - 1) then .error .orderOutOfRange
  else
    .ok (List.ofFn (solve xvals.length (order.toNat + 1) (designMatrix xvals order.toNat)
      (rhs yvals xvals.length)))

/-! ## The telemetry handler of `main` -/

/-- The fields of `j[1]` that the handler reads. -/
structure Telemetry (K : Type) where
  ptsx : List K
  ptsy : List K
  x : K
  y : K
  psi : K
  speed : K
  steering_angle : K
  throttle : K

/-- The body of the transform loop: the global point `(gx, gy)` in the frame of the vehicle
at `(px, py)` with heading `psi`. -/
def carPoint (cos sin : K → K) (px py psi gx gy : K) : K × K :=
  let x := gx - px
  let y := gy - py
  (x * cos (-psi) - y * sin (-psi), x * sin (-psi) + y * cos (-psi))

/-- The vector `car_ptsx` after the transform loop (`ptsx.size()` entries). -/
def car_ptsx (cos sin : K → K) (ptsx ptsy : List K) (px py psi : K) : List K :=
  (List.range ptsx.length).map fun i =>
    (carPoint cos sin px py psi (ptsx.getD i 0) (ptsy.getD i 0)).1

/-- The vector `car_ptsy` after the transform loop: `ptsy.size()` entries, zero where the
loop over `i < ptsx.size()` does not write.  (For `ptsy` shorter than `ptsx` the loop of
the source reads and writes out of bounds; the theorems take the two of equal length.) -/
def car_ptsy (cos sin : K → K) (ptsx ptsy : List K) (px py psi : K) : List K :=
  (List.range ptsy.length).map fun i =>
    if i < ptsx.length then (carPoint cos sin px py psi (ptsx.getD i 0) (ptsy.getD i 0)).2
    else 0

/-- The vector `state` handed to `mpc.Solve`: `cte` and `epsi` from the fitted `coeffs`,
then the latency update of `px, py, psi, epsi, cte, v` in the order of the source. -/
def latencyState (sin atan : K → K) (v steering throttle : K) (coeffs : List K) : List K :=
  let cte := polyeval coeffs 0
  let epsi := -atan (coeffs.getD 1 0)
  let latency : K := 0.1
  let latency := latency * 0.44704
  let Lf : K := 2.67
  let px := v * latency
  let py : K := 0
  let psi := -v * steering * latency / Lf
  let epsi := epsi + psi
  let cte := cte + v * latency * sin epsi
  let v := v + throttle * latency
  [px, py, psi, v, cte, epsi]

/-- The handler up to the call `mpc.Solve(state, coeffs)`: the pair `(state, coeffs)`, or the
assertion of `polyfit` that failed. -/
def solverInput (cos sin atan : K → K) (solve : Solver K) (t : Telemetry K) :
    Except AssertFailure (List K × List K) :=
  match polyfit solve (car_ptsx cos sin t.ptsx t.ptsy t.x t.y t.psi)
      (car_ptsy cos sin t.ptsx t.ptsy t.x t.y t.psi) 3 with
  | .error e => .error e
  | .ok coeffs => .ok (latencyState sin atan t.speed t.steering_angle t.throttle coeffs, coeffs)

/-- A telemetry message with the vehicle at the global pose `(0, 0, 0)`, speed `10`, steering
angle `0` and throttle `0`, for the waypoints `ptsx`, `ptsy`. -/
def straightAhead (ptsx ptsy : List K) : Telemetry K :=
  { ptsx := ptsx, ptsy := ptsy, x := 0, y := 0, psi := 0, speed := 10, steering_angle := 0,
    throttle := 0 }

/-- The value `steer_value = -vars[0] / deg2rad(25)` sent as `steering_angle`. -/
def steer_value (pi : K) (vars : List K) : K := -vars.getD 0 0 / deg2rad pi 25

/-- The value `throttle_value = vars[1]` sent as `throttle`. -/
def throttle_value (vars : List K) : K := vars.getD 1 0

/-! ## Notions the claims are stated with -/

/-- The way back from the vehicle frame in the words of the spec: the inverse rotation
(by `+psi`) followed by the inverse translation (by `(+px, +py)`).  It is no part of
`main.cpp`; the round trip is stated with it. -/
def toGlobal (cos sin : K → K) (px py psi : K) (p : K × K) : K × K :=
  (p.1 * cos psi - p.2 * sin psi + px, p.1 * sin psi + p.2 * cos psi + py)

/-- The cubic `a0 + a1 x + a2 x² + a3 x³`. -/
def cubic (a0 a1 a2 a3 x : K) : K := a0 + a1 * x + a2 * x ^ 2 + a3 * x ^ 3

end Definitions

/-- The sum of the squared residuals of `A c = y`. -/
def residual {K : Type} [Field K] {m n : ℕ} (A : Matrix (Fin m) (Fin n) K) (y : Fin m → K)
    (c : Fin n → K) : K :=
  ∑ j, (∑ i, A j i * c i - y j) ^ 2

/-- Modelled from the spec: what the Householder-QR solve of Eigen (not part of `main.cpp`)
returns, an exact least-squares solution: `c` minimises the sum of the squared residuals
of `A c = y`. -/
def IsLeastSquares {K : Type} [LinearOrderedField K] {m n : ℕ} (A : Matrix (Fin m) (Fin n) K)
    (y : Fin m → K) (c : Fin n → K) : Prop :=
  ∀ c' : Fin n → K, residual A y c ≤ residual A y c'

/-- A solver to put for `solve`: the solution of the normal equations `Aᵀ A c = Aᵀ y` by
Cramer's rule.  It is not the algorithm of Eigen; it serves to show that a solver returning
least-squares solutions exists (`normalEquations_isLeastSquares`). -/
def normalEquations {K : Type} [Field K] : Solver K := fun _ _ A y =>
  ((A.transpose * A).det)⁻¹ • (A.transpose * A).adjugate.mulVec (A.transpose.mulVec y)

/-! ## Auxiliary facts -/

section Lemmas

variable {K : Type} [Field K]

/-- An accumulating loop over `0, …, n - 1` computes the sum of its increments. -/
theorem foldl_range_add_eq_sum (f : ℕ → K) (n : ℕ) :
    (List.range n).foldl (fun result i => result + f i) 0 = ∑ i in Finset.range n, f i := by
  induction n with
  | zero => simp
  | succ n ih => rw [List.range_succ, List.foldl_append, ih, Finset.sum_range_succ]; rfl

/-- The loop of `polyeval` computes `∑ coeffs[i] * x ^ i`. -/
theorem polyeval_eq_sum (coeffs : List K) (x : K) :
    polyeval coeffs x = ∑ i in Finset.range coeffs.length, coeffs.getD i 0 * x ^ i :=
  foldl_range_add_eq_sum (fun i => coeffs.getD i 0 * x ^ i) coeffs.length

/-- At `x = 0` the polynomial is its constant term (`pow(0, 0)` is `1`). -/
theorem polyeval_zero (coeffs : List K) : polyeval coeffs 0 = coeffs.getD 0 0 := by
  rw [polyeval_eq_sum]
  cases coeffs with
  | nil => simp
  | cons c cs =>
    rw [Finset.sum_eq_single 0]
    · simp
    · intro i _ hi
      simp [hi]
    · simp

/-- Column `i` of the design matrix is `x ^ i`. -/
theorem designEntry_eq_pow (x : K) (i : ℕ) : designEntry x i = x ^ i := by
  induction i with
  | zero => simp [designEntry]
  | succ i ih => rw [designEntry, ih, pow_succ]

/-- With both assertions passing, `polyfit` returns what the solver returns. -/
theorem polyfit_ok (solve : Solver K) (xvals yvals : List K) (order : ℤ)
    (hlen : xvals.length = yvals.length) (h1 : 1 ≤ order)
    (h : order + 1 ≤ (xvals.length : ℤ)) :
    polyfit solve xvals yvals order =
      Except.ok (List.ofFn (solve xvals.length (order.toNat + 1)
        (designMatrix xvals order.toNat) (rhs yvals xvals.length))) := by
  have hord : order ≥ 1 ∧ order ≤ (xvals.length : ℤ) - 1 := ⟨h1, by omega⟩
  unfold polyfit
  rw [if_neg (not_not.mpr hlen), if_neg (not_not.mpr hord)]

/-- With fewer than `order + 1` points the second assertion fails. -/
theorem polyfit_order_fails (solve : Solver K) (xvals yvals : List K) (order : ℤ)
    (hlen : xvals.length = yvals.length) (h : (xvals.length : ℤ) < order + 1) :
    polyfit solve xvals yvals order = Except.error AssertFailure.orderOutOfRange := by
  have hord : ¬ (order ≥ 1 ∧ order ≤ (xvals.length : ℤ) - 1) := by
    rintro ⟨_, h2⟩
    omega
  unfold polyfit
  rw [if_neg (not_not.mpr hlen), if_pos hord]

/-- With vectors of different sizes the first assertion fails. -/
theorem polyfit_sizes_fail (solve : Solver K) (xvals yvals : List K) (order : ℤ)
    (hlen : xvals.length ≠ yvals.length) :
    polyfit solve xvals yvals order = Except.error AssertFailure.sizeMismatch := by
  unfold polyfit
  rw [if_pos hlen]

end Lemmas

/-- A vector in the kernel of the design matrix is zero when the nodes take more than
`order` distinct values. -/
theorem designMatrix_kernel_trivial (xvals : List ℝ) (order : ℕ)
    (hd : order + 1 ≤ xvals.toFinset.card) (v : Fin (order + 1) → ℝ)
    (hv : ∀ j : Fin xvals.length, ∑ i, designMatrix xvals order j i * v i = 0) : v = 0 := by
  classical
  have hp : (∑ i : Fin (order + 1), Polynomial.C (v i) * Polynomial.X ^ (i : ℕ)) = 0 := by
    apply Polynomial.eq_zero_of_degree_lt_of_eval_finset_eq_zero xvals.toFinset
    · exact lt_of_lt_of_le (Polynomial.degree_sum_fin_lt v) (by exact_mod_cast hd)
    · intro x hx
      rw [List.mem_toFinset] at hx
      obtain ⟨j, hj⟩ := List.mem_iff_get.mp hx
      have := hv j
      simp only [designMatrix, designEntry_eq_pow] at this
      rw [Polynomial.eval_finset_sum]
      simp only [Polynomial.eval_mul, Polynomial.eval_C, Polynomial.eval_pow, Polynomial.eval_X]
      rw [← this]
      refine Finset.sum_congr rfl fun i _ => ?_
      have hx' : xvals.getD (j : ℕ) 0 = x := by
        rw [← hj]
        simp [List.getD_eq_getElem?_getD]
      rw [hx', mul_comm]
  funext k
  have hk := congrArg (fun p => Polynomial.coeff p (k : ℕ)) hp
  simp only [Polynomial.finset_sum_coeff, Polynomial.coeff_C_mul_X_pow, Polynomial.coeff_zero,
    Fin.val_inj] at hk
  simpa using hk

/-- Where the system `A c = y` of the design matrix has an exact solution `cstar` and the
nodes take more than `order` distinct values, every least-squares solution is `cstar`. -/
theorem leastSquares_unique_of_exact (xvals : List ℝ) (order : ℕ)
    (hd : order + 1 ≤ xvals.toFinset.card) (y : Fin xvals.length → ℝ)
    (cstar c : Fin (order + 1) → ℝ)
    (hexact : ∀ j, ∑ i, designMatrix xvals order j i * cstar i = y j)
    (hc : IsLeastSquares (designMatrix xvals order) y c) : c = cstar := by
  have h0 : residual (designMatrix xvals order) y cstar = 0 := by
    unfold residual
    exact Finset.sum_eq_zero fun j _ => by rw [hexact j, sub_self]; ring
  have hle : residual (designMatrix xvals order) y c ≤ 0 := h0 ▸ hc cstar
  have hnn : ∀ j ∈ (Finset.univ : Finset (Fin xvals.length)),
      0 ≤ (∑ i, designMatrix xvals order j i * c i - y j) ^ 2 := fun j _ => sq_nonneg _
  have hzero : residual (designMatrix xvals order) y c = 0 :=
    le_antisymm hle (Finset.sum_nonneg hnn)
  have hall := (Finset.sum_eq_zero_iff_of_nonneg hnn).mp hzero
  have hker : c - cstar = 0 := by
    apply designMatrix_kernel_trivial xvals order hd
    intro j
    have hj := hall j (Finset.mem_univ j)
    have hj' : ∑ i, designMatrix xvals order j i * c i = y j := by
      have := pow_eq_zero_iff (two_ne_zero) |>.mp hj
      linarith
    simp only [Pi.sub_apply, mul_sub, Finset.sum_sub_distrib, hj', hexact j, sub_self]
  exact sub_eq_zero.mp hker

/-- The residual is the squared length of `A c - y`. -/
theorem residual_eq_dotProduct {m n : ℕ} (A : Matrix (Fin m) (Fin n) ℝ) (y : Fin m → ℝ)
    (c : Fin n → ℝ) :
    residual A y c = Matrix.dotProduct (A.mulVec c - y) (A.mulVec c - y) := by
  simp only [residual, Matrix.dotProduct, Matrix.mulVec, Pi.sub_apply, pow_two]

/-- A solution of the normal equations `Aᵀ A c = Aᵀ y` is a least-squares solution. -/
theorem isLeastSquares_of_normal {m n : ℕ} (A : Matrix (Fin m) (Fin n) ℝ) (y : Fin m → ℝ)
    (c : Fin n → ℝ) (h : A.transpose.mulVec (A.mulVec c) = A.transpose.mulVec y) :
    IsLeastSquares A y c := by
  intro c'
  rw [residual_eq_dotProduct, residual_eq_dotProduct]
  have hsplit : A.mulVec c' - y = A.mulVec (c' - c) + (A.mulVec c - y) := by
    rw [Matrix.mulVec_sub]
    abel
  have hr : A.transpose.mulVec (A.mulVec c - y) = 0 := by
    rw [Matrix.mulVec_sub, h, sub_self]
  have hcross : Matrix.dotProduct (A.mulVec c - y) (A.mulVec (c' - c)) = 0 := by
    rw [Matrix.dotProduct_mulVec, ← Matrix.mulVec_transpose, hr, Matrix.zero_dotProduct]
  have hcross' : Matrix.dotProduct (A.mulVec (c' - c)) (A.mulVec c - y) = 0 := by
    rw [Matrix.dotProduct_comm, hcross]
  rw [hsplit, Matrix.add_dotProduct, Matrix.dotProduct_add, Matrix.dotProduct_add, hcross,
    hcross']
  have hnn : 0 ≤ Matrix.dotProduct (A.mulVec (c' - c)) (A.mulVec (c' - c)) :=
    Finset.sum_nonneg fun j _ => mul_self_nonneg _
  linarith

/-- Where `Aᵀ A` is invertible, `normalEquations` solves the normal equations. -/
theorem normalEquations_solves {m n : ℕ} (A : Matrix (Fin m) (Fin n) ℝ) (y : Fin m → ℝ)
    (hdet : (A.transpose * A).det ≠ 0) :
    A.transpose.mulVec (A.mulVec (normalEquations m n A y)) = A.transpose.mulVec y := by
  unfold normalEquations
  rw [Matrix.mulVec_mulVec, Matrix.mulVec_smul, Matrix.mulVec_mulVec, Matrix.mul_adjugate,
    Matrix.smul_mulVec_assoc, Matrix.one_mulVec, smul_smul, inv_mul_cancel₀ hdet, one_smul]

/-- The matrix `Aᵀ A` of a design matrix whose nodes take more than `order` distinct values
is invertible. -/
theorem designMatrix_gram_det_ne_zero (xvals : List ℝ) (order : ℕ)
    (hd : order + 1 ≤ xvals.toFinset.card) :
    ((designMatrix xvals order).transpose * designMatrix xvals order).det ≠ 0 := by
  intro hdet
  obtain ⟨v, hv0, hv⟩ := Matrix.exists_mulVec_eq_zero_iff.mpr hdet
  apply hv0
  apply designMatrix_kernel_trivial xvals order hd
  have hAv : Matrix.dotProduct ((designMatrix xvals order).mulVec v)
      ((designMatrix xvals order).mulVec v) = 0 := by
    rw [Matrix.dotProduct_mulVec, ← Matrix.mulVec_transpose, Matrix.mulVec_mulVec, hv,
      Matrix.zero_dotProduct]
  have hzero := Matrix.dotProduct_self_eq_zero.mp hAv
  intro j
  exact congrFun hzero j

/-- On a design matrix whose nodes take more than `order` distinct values, `normalEquations`
returns a least-squares solution. -/
theorem normalEquations_isLeastSquares (xvals : List ℝ) (order : ℕ)
    (hd : order + 1 ≤ xvals.toFinset.card) (y : Fin xvals.length → ℝ) :
    IsLeastSquares (designMatrix xvals order) y
      (normalEquations xvals.length (order + 1) (designMatrix xvals order) y) :=
  isLeastSquares_of_normal _ _ _
    (normalEquations_solves _ _ (designMatrix_gram_det_ne_zero xvals order hd))

/-- The maximum steering angle `deg2rad(25)` is positive. -/
theorem deg2rad_25_pos : 0 < deg2rad Real.pi 25 := by
  unfold deg2rad
  positivity

/-- With the vehicle at the pose `(0, 0, 0)` the three waypoints keep their coordinates. -/
theorem car_pts_three :
    car_ptsx Real.cos Real.sin [10, 20, 30] [0, 0, 0] 0 0 0 = [10, 20, 30] ∧
      car_ptsy Real.cos Real.sin [10, 20, 30] [0, 0, 0] 0 0 0 = [0, 0, 0] := by
  constructor <;> simp [car_ptsx, car_ptsy, carPoint, List.range_succ]

/-- With the vehicle at the pose `(0, 0, 0)` the four waypoints keep their coordinates. -/
theorem car_pts_four :
    car_ptsx Real.cos Real.sin [10, 20, 30, 40] [0, 0, 0, 0] 0 0 0 = [10, 20, 30, 40] ∧
      car_ptsy Real.cos Real.sin [10, 20, 30, 40] [0, 0, 0, 0] 0 0 0 = [0, 0, 0, 0] := by
  constructor <;> simp [car_ptsx, car_ptsy, carPoint, List.range_succ]

/-! ## What `hasData` returns -/

/-- A search that does not end in `npos` found the position it returns. -/
theorem find?_eq_some_of_getD_ne (p : ℕ → Bool) (l : List ℕ)
    (h : (l.find? p).getD npos ≠ npos) : l.find? p = some ((l.find? p).getD npos) := by
  cases hf : l.find? p with
  | none => rw [hf] at h; exact absurd rfl h
  | some i => rfl

/-- A position that `find_first_of` returns lies in the string and holds a character of the
set. -/
theorem find_first_of_spec (s set : List Char) (h : find_first_of s set ≠ npos) :
    ∃ c rest, s.drop (find_first_of s set) = c :: rest ∧ c ∈ set := by
  have hsome := find?_eq_some_of_getD_ne _ _ h
  have hp := List.find?_some hsome
  change ((s.drop (find_first_of s set)).head?.any fun c => set.contains c) = true at hp
  cases hd : s.drop (find_first_of s set) with
  | nil => rw [hd] at hp; simp at hp
  | cons c rest =>
    rw [hd] at hp
    refine ⟨c, rest, rfl, ?_⟩
    simpa using hp

/-- At a position that `rfind` returns the pattern occurs. -/
theorem rfind_spec (s pat : List Char) (h : rfind s pat ≠ npos) :
    pat <+: s.drop (rfind s pat) := by
  have hsome := find?_eq_some_of_getD_ne _ _ h
  have hp := List.find?_some hsome
  exact List.isPrefixOf_iff_prefix.mp hp

/-- Without `null`, with a `[` and with a last `}]` that starts after the first `[`,
`hasData` returns the substring from the first `[` to the last `}]` inclusive: it begins with
`[` and ends with `}]`. -/
theorem hasData_payload_of_ordered (s : List Char) (hsize : s.length < 2 ^ 64)
    (hnull : find s "null".toList = npos)
    (h1 : find_first_of s "[".toList ≠ npos) (h2 : rfind s "\x7d]".toList ≠ npos)
    (hlt : find_first_of s "[".toList < rfind s "\x7d]".toList) :
    hasData s = '[' :: (s.drop (find_first_of s "[".toList + 1)).take
      (rfind s "\x7d]".toList - find_first_of s "[".toList - 1) ++ ['}', ']'] := by
  obtain ⟨c, rest, hdrop1, hc⟩ := find_first_of_spec s _ h1
  obtain ⟨rest2, hdrop2⟩ := rfind_spec s _ h2
  have hc' : c = '[' := by simpa using hc
  subst hc'
  generalize hb1 : find_first_of s "[".toList = b1 at *
  generalize hb2 : rfind s "\x7d]".toList = b2 at *
  have hlen2 : b2 + 2 ≤ s.length := by
    have := congrArg List.length hdrop2
    simp at this
    omega
  have hcount : (b2 + (2 ^ 64 - b1) + 2) % 2 ^ 64 = ((b2 - b1 - 1) + 2) + 1 := by omega
  have hrest : rest = s.drop (b1 + 1) := by
    rw [← List.drop_drop 1 b1 s, hdrop1]
    rfl
  have hd2 : (s.drop (b1 + 1)).drop (b2 - b1 - 1) = s.drop b2 := by
    rw [List.drop_drop]
    congr 1
    omega
  unfold hasData
  simp only [hnull, hb1, hb2, ne_eq, not_true_eq_false, if_false, h1, h2, not_false_eq_true,
    and_self, if_true, substr]
  rw [hcount, hdrop1, List.take_succ_cons, hrest, List.take_add, hd2, ← hdrop2]
  simp [List.take_append_eq_append_take]

/-- With `null` in the string, without a `[`, or without a `}]`, `hasData` returns the empty
string. -/
theorem hasData_eq_nil (s : List Char)
    (h : find s "null".toList ≠ npos ∨ find_first_of s "[".toList = npos ∨
      rfind s "\x7d]".toList = npos) : hasData s = [] := by
  unfold hasData
  dsimp only
  split_ifs with a b
  · rfl
  · rcases h with h | h | h
    · exact absurd h a
    · exact absurd h b.1
    · exact absurd h b.2
  · rfl

/-! ## The claims -/

/-- Claim C1. For every vehicle pose `(px, py, psi)` and every global point `(x, y)`, mapping
the point to the vehicle frame as the transform loop of `main` does and then applying the
inverse rotation (by `+psi`) and the inverse translation (by `(+px, +py)`) gives back
`(x, y)`; over the real numbers the round trip is exact. -/
theorem carPoint_toGlobal_roundtrip (px py psi x y : ℝ) :
    toGlobal Real.cos Real.sin px py psi (carPoint Real.cos Real.sin px py psi x y) = (x, y) := by
  simp only [toGlobal, carPoint, Real.cos_neg, Real.sin_neg, Prod.mk.injEq]
  constructor
  · linear_combination (x - px) * Real.cos_sq_add_sin_sq psi
  · linear_combination (y - py) * Real.cos_sq_add_sin_sq psi

/-- Claim C2. For every cubic with coefficients `(a0, a1, a2, a3)` and every list of sample
points `(x_i, a0 + a1 x_i + a2 x_i² + a3 x_i³)` with at least four distinct `x_i` (hence at
least four points), `polyfit(xvals, yvals, 3)` returns exactly `(a0, a1, a2, a3)`, constant
term first, whenever the solver returns a least-squares solution of the design matrix
(column `i` is `x ^ i`) for these samples. -/
theorem polyfit_recovers_cubic (solve : Solver ℝ) (a0 a1 a2 a3 : ℝ) (xvals : List ℝ)
    (hdistinct : 4 ≤ xvals.toFinset.card)
    (hsolve : IsLeastSquares (designMatrix xvals 3)
      (rhs (xvals.map (cubic a0 a1 a2 a3)) xvals.length)
      (solve xvals.length 4 (designMatrix xvals 3)
        (rhs (xvals.map (cubic a0 a1 a2 a3)) xvals.length))) :
    polyfit solve xvals (xvals.map (cubic a0 a1 a2 a3)) 3 = Except.ok [a0, a1, a2, a3] := by
  have hlen : 4 ≤ xvals.length := le_trans hdistinct (List.toFinset_card_le xvals)
  rw [polyfit_ok solve xvals _ 3 (by simp) (by norm_num) (by exact_mod_cast hlen)]
  have hc := leastSquares_unique_of_exact xvals 3 hdistinct _ ![a0, a1, a2, a3] _ (by
    intro j
    simp only [designMatrix, designEntry_eq_pow, rhs, Fin.sum_univ_four]
    have hj : (xvals.map (cubic a0 a1 a2 a3)).getD (j : ℕ) 0
        = cubic a0 a1 a2 a3 (xvals.getD (j : ℕ) 0) := by
      simp [List.getD_eq_getElem?_getD]
    rw [hj]
    have h3 : ((3 : Fin 4) : ℕ) = 3 := rfl
    simp [cubic, Fin.sum_univ_four, h3]
    ring) hsolve
  show Except.ok (List.ofFn (solve xvals.length 4 (designMatrix xvals 3) _)) = _
  rw [hc]
  rfl

/-- Claim C2 at the cubic `1 + 2 x + 3 x² + 4 x³` sampled at `0, 1, 2, 3`, with the solver
`normalEquations`, which returns a least-squares solution there. -/
theorem polyfit_recovers_cubic_witness :
    4 ≤ ([0, 1, 2, 3] : List ℝ).toFinset.card ∧
      polyfit normalEquations ([0, 1, 2, 3] : List ℝ) ([0, 1, 2, 3].map (cubic 1 2 3 4)) 3
        = Except.ok [1, 2, 3, 4] :=
  have hd : 4 ≤ ([0, 1, 2, 3] : List ℝ).toFinset.card := by
    rw [List.toFinset_card_of_nodup (by norm_num)]
    simp
  ⟨hd, polyfit_recovers_cubic normalEquations 1 2 3 4 [0, 1, 2, 3] hd
    (normalEquations_isLeastSquares [0, 1, 2, 3] 3 hd _)⟩

/-- Claim C3. For every speed `v`, steering angle, throttle and coefficient vector, the state
handed to the solver is the forward-Euler latency step: with `cte = polyeval(coeffs, 0)`,
`epsi = -atan(coeffs[1])`, `L = 0.1 * 0.44704` and `Lf = 2.67` it is
`(x', y', psi', v', cte', epsi')` with `x' = v L`, `y' = 0`, `psi' = -v * steering * L / Lf`,
`epsi' = epsi + psi'`, `cte' = cte + v L sin(epsi')` and `v' = v + throttle * L`: the speed
in `x'`, `psi'`, `cte'` is the one before its update, the sine is of the updated `epsi'`.
The handler passes this state, with the coefficients, whenever `polyfit` returns. -/
theorem latencyState_forward_euler (v steering throttle : ℝ) (coeffs : List ℝ) :
    latencyState Real.sin Real.arctan v steering throttle coeffs =
      [v * (0.1 * 0.44704),
       0,
       -v * steering * (0.1 * 0.44704) / 2.67,
       v + throttle * (0.1 * 0.44704),
       polyeval coeffs 0 + v * (0.1 * 0.44704) *
         Real.sin (-Real.arctan (coeffs.getD 1 0) + -v * steering * (0.1 * 0.44704) / 2.67),
       -Real.arctan (coeffs.getD 1 0) + -v * steering * (0.1 * 0.44704) / 2.67] ∧
    ∀ (solve : Solver ℝ) (t : Telemetry ℝ),
      solverInput Real.cos Real.sin Real.arctan solve t =
        (polyfit solve (car_ptsx Real.cos Real.sin t.ptsx t.ptsy t.x t.y t.psi)
          (car_ptsy Real.cos Real.sin t.ptsx t.ptsy t.x t.y t.psi) 3).map fun c =>
            (latencyState Real.sin Real.arctan t.speed t.steering_angle t.throttle c, c) := by
  refine ⟨rfl, fun solve t => ?_⟩
  unfold solverInput
  cases polyfit solve (car_ptsx Real.cos Real.sin t.ptsx t.ptsy t.x t.y t.psi)
    (car_ptsy Real.cos Real.sin t.ptsx t.ptsy t.x t.y t.psi) 3 <;> rfl

/-- Claim C4. For every input with fewer than `order + 1` points (for the order `3` of `main`:
fewer than four waypoints, the empty set included), `polyfit` fails explicitly and returns no
coefficient vector: an assertion fails, and for as many `y` as `x` values it is the assertion
`order <= xvals.size() - 1`, the insufficient-points failure. -/
theorem polyfit_too_few_points (solve : Solver ℝ) (xvals yvals : List ℝ) (order : ℤ)
    (h : (xvals.length : ℤ) < order + 1) :
    (∃ e, polyfit solve xvals yvals order = Except.error e) ∧
      (xvals.length = yvals.length →
        polyfit solve xvals yvals order = Except.error AssertFailure.orderOutOfRange) := by
  refine ⟨?_, fun hlen => polyfit_order_fails solve xvals yvals order hlen h⟩
  by_cases hlen : xvals.length = yvals.length
  · exact ⟨_, polyfit_order_fails solve xvals yvals order hlen h⟩
  · exact ⟨_, polyfit_sizes_fail solve xvals yvals order hlen⟩

/-- Claim C4 at the empty waypoint set and at three waypoints, for the order `3`. -/
theorem polyfit_too_few_points_witness :
    polyfit (fun _ _ _ _ _ => (0 : ℝ)) [] [] 3 = Except.error AssertFailure.orderOutOfRange ∧
      polyfit (fun _ _ _ _ _ => (0 : ℝ)) [10, 20, 30] [0, 0, 0] 3
        = Except.error AssertFailure.orderOutOfRange :=
  ⟨(polyfit_too_few_points (fun _ _ _ _ _ => 0) [] [] 3 (by norm_num)).2 rfl,
    (polyfit_too_few_points (fun _ _ _ _ _ => 0) [10, 20, 30] [0, 0, 0] 3 (by norm_num)).2 rfl⟩

/-- Claim C5, refuted: for the four points with abscissae `1, 1, 1, 1`, whose design matrix
has rank one, there is no solver with which `polyfit` fails. -/
theorem polyfit_singular_returns :
    ¬ ∃ (solve : Solver ℝ) (e : AssertFailure),
      polyfit solve [1, 1, 1, 1] [2, 3, 5, 7] 3 = Except.error e := by
  rintro ⟨solve, e, he⟩
  rw [polyfit_ok solve [1, 1, 1, 1] [2, 3, 5, 7] 3 rfl (by norm_num) (by norm_num)] at he
  cases he

/-- Claim C5, amended. For every input with at least `order + 1` points (`order ≥ 1`, as many
`y` as `x` values), `polyfit` raises no error, whatever the rank of the design matrix: it
returns the `order + 1` entries that the solver returns for the design matrix and `yvals`. -/
theorem polyfit_no_singular_check (solve : Solver ℝ) (xvals yvals : List ℝ) (order : ℤ)
    (hlen : xvals.length = yvals.length) (h1 : 1 ≤ order)
    (h : order + 1 ≤ (xvals.length : ℤ)) :
    polyfit solve xvals yvals order =
        Except.ok (List.ofFn (solve xvals.length (order.toNat + 1)
          (designMatrix xvals order.toNat) (rhs yvals xvals.length))) ∧
      (List.ofFn (solve xvals.length (order.toNat + 1)
          (designMatrix xvals order.toNat) (rhs yvals xvals.length))).length = order.toNat + 1 :=
  ⟨polyfit_ok solve xvals yvals order hlen h1 h, List.length_ofFn _⟩

/-- Claim C5, amended, at the rank-one input with abscissae `1, 1, 1, 1` and a solver that
returns `(0, 1, 2, 3)`. -/
theorem polyfit_no_singular_check_witness :
    polyfit (fun _ _ _ _ i => (i : ℝ)) [1, 1, 1, 1] [2, 3, 5, 7] 3 = Except.ok [0, 1, 2, 3] := by
  rw [(polyfit_no_singular_check (fun _ _ _ _ i => (i : ℝ)) [1, 1, 1, 1] [2, 3, 5, 7] 3 rfl
    (by norm_num) (by norm_num)).1]
  simp [List.ofFn_succ]
  norm_num

/-- Claim C6, refuted: for the solver result `(1, 0)` the steering command is below `-1`;
`main` sends it as computed. -/
theorem steer_value_unclamped : steer_value Real.pi [1, 0] < -1 := by
  unfold steer_value
  rw [div_lt_iff₀ deg2rad_25_pos]
  simp only [List.getD_cons_zero, deg2rad]
  have := Real.pi_le_four
  linarith

/-- Claim C6, amended. The steering command that `main` emits lies in `[-1, 1]` exactly when
the first entry of the solver result lies in `[-deg2rad(25), deg2rad(25)]`; `main` itself
clamps nothing. -/
theorem steer_value_range_iff (vars : List ℝ) :
    (-1 ≤ steer_value Real.pi vars ∧ steer_value Real.pi vars ≤ 1) ↔
      (-deg2rad Real.pi 25 ≤ vars.getD 0 0 ∧ vars.getD 0 0 ≤ deg2rad Real.pi 25) := by
  unfold steer_value
  rw [le_div_iff₀ deg2rad_25_pos, div_le_iff₀ deg2rad_25_pos]
  constructor <;> rintro ⟨h1, h2⟩ <;> constructor <;> linarith

/-- Claim C7, refuted: for the raw steering angle `deg2rad(25)` the command is `-1`, not the
quotient `deg2rad(25) / deg2rad(25) = 1`. -/
theorem steer_value_sign_flipped :
    steer_value Real.pi [deg2rad Real.pi 25, 0] = -1 ∧
      steer_value Real.pi [deg2rad Real.pi 25, 0] ≠ deg2rad Real.pi 25 / deg2rad Real.pi 25 := by
  have hne : deg2rad Real.pi 25 ≠ 0 := ne_of_gt deg2rad_25_pos
  have h : steer_value Real.pi [deg2rad Real.pi 25, 0] = -1 := by
    unfold steer_value
    simp only [List.getD_cons_zero]
    rw [neg_div, div_self hne]
  refine ⟨h, ?_⟩
  rw [h, div_self hne]
  norm_num

/-- Claim C7, amended. For every solver result the steering command is the negated raw
steering angle (the first entry) divided by `deg2rad(25)`: a positive raw angle gives a
negative command, a negative one a positive command, and a raw angle in
`[-deg2rad(25), deg2rad(25)]` gives a command in `[-1, 1]`. -/
theorem steer_value_eq_neg_div (vars : List ℝ) :
    steer_value Real.pi vars = -(vars.getD 0 0 / deg2rad Real.pi 25) ∧
      (0 < vars.getD 0 0 → steer_value Real.pi vars < 0) ∧
      (vars.getD 0 0 < 0 → 0 < steer_value Real.pi vars) ∧
      (|vars.getD 0 0| ≤ deg2rad Real.pi 25 → |steer_value Real.pi vars| ≤ 1) := by
  have hpos := deg2rad_25_pos
  have heq : steer_value Real.pi vars = -(vars.getD 0 0 / deg2rad Real.pi 25) := by
    unfold steer_value
    rw [neg_div]
  refine ⟨heq, fun h => ?_, fun h => ?_, fun h => ?_⟩
  · rw [heq, neg_lt_zero]
    exact div_pos h hpos
  · rw [heq, neg_pos]
    exact div_neg_of_neg_of_pos h hpos
  · rw [heq, abs_neg, abs_div, abs_of_pos hpos]
    exact (div_le_one hpos).mpr h

/-- Claim C7, amended, at the raw steering angle `deg2rad(25) / 2`: the command is `-1/2`. -/
theorem steer_value_eq_neg_div_witness :
    steer_value Real.pi [deg2rad Real.pi 25 / 2, 0] = -(1 / 2) := by
  have hne : deg2rad Real.pi 25 ≠ 0 := ne_of_gt deg2rad_25_pos
  rw [(steer_value_eq_neg_div [deg2rad Real.pi 25 / 2, 0]).1]
  simp only [List.getD_cons_zero]
  field_simp
  ring

/-- Claim C8. For every coefficient vector with at least two entries, the function
`x ↦ polyeval(coeffs, x)` has at `x = 0` the derivative `coeffs[1]`, the slope that `main`
puts into `epsi = -atan(coeffs[1])`. -/
theorem polyeval_hasDerivAt_zero (coeffs : List ℝ) (h : 2 ≤ coeffs.length) :
    HasDerivAt (fun x => polyeval coeffs x) coeffs[1] 0 := by
  have hsum : HasDerivAt (fun x => ∑ i in Finset.range coeffs.length, coeffs.getD i 0 * x ^ i)
      (∑ i in Finset.range coeffs.length, coeffs.getD i 0 * ((i : ℝ) * (0 : ℝ) ^ (i - 1))) 0 :=
    HasDerivAt.sum fun i _ => (hasDerivAt_pow i (0 : ℝ)).const_mul (coeffs.getD i 0)
  have hval : (∑ i in Finset.range coeffs.length, coeffs.getD i 0 * ((i : ℝ) * (0 : ℝ) ^ (i - 1)))
      = coeffs[1] := by
    rw [Finset.sum_eq_single 1]
    · simp [List.getD_eq_getElem?_getD, List.getElem?_eq_getElem (show 1 < coeffs.length by omega)]
    · intro i _ hi
      rcases Nat.eq_zero_or_pos i with h0 | hpos
      · simp [h0]
      · have : i - 1 ≠ 0 := by omega
        simp [this]
    · intro hnot
      exact absurd (Finset.mem_range.mpr (by omega)) hnot
  rw [hval] at hsum
  have hfun : (fun x => polyeval coeffs x)
      = fun x => ∑ i in Finset.range coeffs.length, coeffs.getD i 0 * x ^ i := by
    funext x
    exact polyeval_eq_sum coeffs x
  rw [hfun]
  exact hsum

/-- Claim C8 at the coefficient vector `(5, 7, 11, 13)`: the derivative at `0` is `7`. -/
theorem polyeval_hasDerivAt_zero_witness :
    2 ≤ ([5, 7, 11, 13] : List ℝ).length ∧
      HasDerivAt (fun x => polyeval ([5, 7, 11, 13] : List ℝ) x) 7 0 :=
  ⟨by decide, polyeval_hasDerivAt_zero [5, 7, 11, 13] (by decide)⟩

/-- Claim C9, refuted: for the waypoints `(10,0), (20,0), (30,0)` with the vehicle at the pose
`(0, 0, 0)`, speed `10`, steering `0` and throttle `0`, there is no solver with which the
handler reaches the solver call: no fitted curve and no state exist. -/
theorem straight_line_three_waypoints_rejected :
    ¬ ∃ (solve : Solver ℝ) (r : List ℝ × List ℝ),
      solverInput Real.cos Real.sin Real.arctan solve
        (straightAhead [10, 20, 30] [0, 0, 0]) = Except.ok r := by
  rintro ⟨solve, r, hr⟩
  simp only [solverInput, straightAhead, car_pts_three.1, car_pts_three.2] at hr
  rw [polyfit_order_fails solve [10, 20, 30] [0, 0, 0] 3 rfl (by norm_num)] at hr
  cases hr

/-- Claim C9, amended. For the waypoints `(10,0), (20,0), (30,0)` with the vehicle at the pose
`(0, 0, 0)`, speed `10`, steering `0` and throttle `0`, the local-frame points equal the
global points and `polyfit` with order `3` fails the assertion `order <= xvals.size() - 1`
(three points), so the handler reaches no solver call.  With the fourth waypoint `(40,0)` on
the same line and a solver that returns a least-squares solution there, the handler reaches
the solver call with the coefficients `(0, 0, 0, 0)` (so `cte = 0`, `epsi = 0`) and the state
`x' = 10 L > 0`, `y' = 0`, `psi' = 0`, speed `10`, `cte' = 0`, `epsi' = 0`,
where `L = 0.1 * 0.44704`. -/
theorem straight_line_scenario (solve : Solver ℝ)
    (hsolve : IsLeastSquares (designMatrix [10, 20, 30, 40] 3) (rhs [0, 0, 0, 0] 4)
      (solve 4 4 (designMatrix [10, 20, 30, 40] 3) (rhs [0, 0, 0, 0] 4))) :
    car_ptsx Real.cos Real.sin [10, 20, 30] [0, 0, 0] 0 0 0 = [10, 20, 30] ∧
    car_ptsy Real.cos Real.sin [10, 20, 30] [0, 0, 0] 0 0 0 = [0, 0, 0] ∧
    solverInput Real.cos Real.sin Real.arctan solve (straightAhead [10, 20, 30] [0, 0, 0])
      = Except.error AssertFailure.orderOutOfRange ∧
    car_ptsx Real.cos Real.sin [10, 20, 30, 40] [0, 0, 0, 0] 0 0 0 = [10, 20, 30, 40] ∧
    car_ptsy Real.cos Real.sin [10, 20, 30, 40] [0, 0, 0, 0] 0 0 0 = [0, 0, 0, 0] ∧
    solverInput Real.cos Real.sin Real.arctan solve
        (straightAhead [10, 20, 30, 40] [0, 0, 0, 0])
      = Except.ok ([10 * (0.1 * 0.44704), 0, 0, 10, 0, 0], [0, 0, 0, 0]) ∧
    polyeval ([0, 0, 0, 0] : List ℝ) 0 = 0 ∧
    -Real.arctan (([0, 0, 0, 0] : List ℝ).getD 1 0) = 0 ∧
    (0 : ℝ) < 10 * (0.1 * 0.44704) := by
  refine ⟨car_pts_three.1, car_pts_three.2, ?_, car_pts_four.1, car_pts_four.2, ?_,
    by simp [polyeval_zero], by simp, by norm_num⟩
  · simp only [solverInput, straightAhead, car_pts_three.1, car_pts_three.2]
    rw [polyfit_order_fails solve [10, 20, 30] [0, 0, 0] 3 rfl (by norm_num)]
  · have hd : 3 + 1 ≤ ([10, 20, 30, 40] : List ℝ).toFinset.card := by
      rw [List.toFinset_card_of_nodup (by norm_num)]
      simp
    have hc := leastSquares_unique_of_exact [10, 20, 30, 40] 3 hd (rhs [0, 0, 0, 0] 4) 0 _
      (by intro j; fin_cases j <;> simp [rhs]) hsolve
    simp only [solverInput, straightAhead, car_pts_four.1, car_pts_four.2]
    rw [polyfit_ok solve [10, 20, 30, 40] [0, 0, 0, 0] 3 rfl (by norm_num) (by norm_num)]
    have hcoef : List.ofFn (solve ([10, 20, 30, 40] : List ℝ).length ((3 : ℤ).toNat + 1)
        (designMatrix [10, 20, 30, 40] (3 : ℤ).toNat)
        (rhs [0, 0, 0, 0] ([10, 20, 30, 40] : List ℝ).length)) = [0, 0, 0, 0] := by
      show List.ofFn (solve 4 4 (designMatrix [10, 20, 30, 40] 3) (rhs [0, 0, 0, 0] 4)) = _
      rw [hc]
      rfl
    rw [hcoef]
    simp [latencyState, polyeval_zero]

/-- Claim C9, amended, with the solver `normalEquations`, which returns a least-squares
solution for the four waypoints. -/
theorem straight_line_scenario_witness :
    solverInput Real.cos Real.sin Real.arctan normalEquations
        (straightAhead [10, 20, 30] [0, 0, 0])
      = Except.error AssertFailure.orderOutOfRange ∧
    solverInput Real.cos Real.sin Real.arctan normalEquations
        (straightAhead [10, 20, 30, 40] [0, 0, 0, 0])
      = Except.ok ([10 * (0.1 * 0.44704), 0, 0, 10, 0, 0], [0, 0, 0, 0]) :=
  have hd : 3 + 1 ≤ ([10, 20, 30, 40] : List ℝ).toFinset.card := by
    rw [List.toFinset_card_of_nodup (by norm_num)]
    simp
  have h := straight_line_scenario normalEquations
    (normalEquations_isLeastSquares [10, 20, 30, 40] 3 hd (rhs [0, 0, 0, 0] 4))
  ⟨h.2.2.1, h.2.2.2.2.2.1⟩

/-- Claim C10, the input on which `hasData` breaks it: in `42}]x[` the last `}]` stands before
the first `[`, the length `b2 - b1 + 2` wraps around in `size_t`, and the result is `[`,
which is not empty and does not end with `}]`. -/
theorem hasData_bracket_after_payload :
    hasData "42\x7d]x[".toList = "[".toList ∧ find "42\x7d]x[".toList "null".toList = npos ∧
      find_first_of "42\x7d]x[".toList "[".toList = 5 ∧
      rfind "42\x7d]x[".toList "\x7d]".toList = 2 := by
  decide

end MPC
